import Mathlib

/-!
Verification of the gate-kernel dispatch layer of
`src/catalyst/runtime/lib/backend/custom_device/circuit.py`.

State vectors are lists of complex amplitudes (exact reals model the
float64 arithmetic, as the testable properties are stated over exact
reals up to tolerance).  The software Hadamard kernel
(`_apply_hadamard_python`), the accelerated dispatch
(`_apply_hadamard_cpp`), device construction (`CustomDevice.__init__`)
and circuit execution (`execute`) are embedded below; the foreign
kernel is an abstract parameter since its binary is outside the
repository.
-/

/-- Errors observable from the Python code.  `indexError` models the
built-in `IndexError` raised by an out-of-range sequence access
(`result[idx]` in `_apply_hadamard_python`).  `invalidQubitIndex` is
modelled from the spec: the error taxonomy of spec section 7 names
`InvalidQubitIndex` for target-qubit validation failures; no such
error exists anywhere in the source, the constructor exists only so
that statements can compare the two. -/
inductive GateError where
  | indexError : GateError
  | invalidQubitIndex : GateError
deriving DecidableEq

/-- The two buffers live during a call of `_apply_hadamard_python`
(circuit.py lines 116-131): `state` is the caller-owned input array
and `result` is the working copy created by `result = state.copy()`
(line 118).  All writes of the loop go to `result`. -/
structure Store where
  state : List ℂ
  result : List ℂ

/-- Body of the loop of `_apply_hadamard_python` (circuit.py lines
122-129), acting on the `result` buffer: `idx1 = i ^ (1 << t)`; when
`idx0 < idx1`, read `result[idx0]`, `result[idx1]` (an out-of-range
read raises `IndexError`), then write the two combined amplitudes
back. -/
def hadPairStep (c : ℂ) (t : ℕ) (r : List ℂ) (i : ℕ) : Except GateError (List ℂ) :=
  let j := i ^^^ 2 ^ t
  if i < j then
    match r[i]?, r[j]? with
    | some a, some b => .ok ((r.set i (c * (a + b))).set j (c * (a - b)))
    | _, _ => .error .indexError
  else
    .ok r

/-- The loop body lifted to the two-buffer store: writes touch only
the `result` component, and a raised `IndexError` aborts the loop
leaving both buffers as they were (the failing iteration reads before
it writes). -/
def hadStoreStep (c : ℂ) (t : ℕ) (st : Store) (i : ℕ) : Except (GateError × Store) Store :=
  match hadPairStep c t st.result i with
  | .ok r => .ok ⟨st.state, r⟩
  | .error e => .error (e, st)

/-- Store semantics of `_apply_hadamard_python state t n` (circuit.py
lines 116-131): start from `result = state.copy()` and run the loop
`for i in range(1 << n)`.  On success the final store is returned; on
an uncaught `IndexError` the store at the moment of the raise is
paired with the error. -/
def applyHadamardPythonRunWith (c : ℂ) (state : List ℂ) (t n : ℕ) :
    Except (GateError × Store) Store :=
  (List.range (2 ^ n)).foldlM (hadStoreStep c t) ⟨state, state⟩

/-- The contents of the two buffers once the call has finished,
whether it returned or raised. -/
def pyStateAfter : Except (GateError × Store) Store → Store
  | .ok st => st
  | .error (_, st) => st

/-- The caller-visible outcome of a python-path call: the returned
`result` buffer, or the propagated error. -/
def pyOutcome : Except (GateError × Store) Store → Except GateError (List ℂ)
  | .ok st => .ok st.result
  | .error (e, _) => .error e

/-- Return value of `_apply_hadamard_python` with an explicit
amplitude factor `c` (the source fixes `c = 1/sqrt 2`, see
`applyHadamardPython`). -/
def applyHadamardPythonWith (c : ℂ) (state : List ℂ) (t n : ℕ) : Except GateError (List ℂ) :=
  pyOutcome (applyHadamardPythonRunWith c state t n)

/-- The constant `sqrt2_inv = 1.0 / np.sqrt(2.0)` of circuit.py line
120, over exact reals. -/
noncomputable def invSqrt2 : ℝ := 1 / Real.sqrt 2

/-- The same constant as the complex amplitude factor. -/
noncomputable def invSqrt2C : ℂ := (invSqrt2 : ℝ)

/-- `_apply_hadamard_python` itself: the software Hadamard update of
circuit.py lines 116-131. -/
noncomputable def applyHadamardPython (state : List ℂ) (t n : ℕ) : Except GateError (List ℂ) :=
  applyHadamardPythonWith invSqrt2C state t n

/-- Modelled from the spec, section 4.2 "Hadamard update algorithm":
the new amplitude at index `x`.  For `x` with bit `t` clear (the `i`
of a pair, with partner `j = i OR bit`): `newAmp[i] = c*(amp[i] +
amp[j])`.  For `x` with bit `t` set (the `j` of a pair, whose partner
`i` is `x` with bit `t` cleared): `newAmp[j] = c*(amp[i] - amp[j])`. -/
def specNewAmp (c : ℂ) (amp : List ℂ) (t x : ℕ) : ℂ :=
  if x.testBit t then c * (amp.getD (x ^^^ 2 ^ t) 0 - amp.getD x 0)
  else c * (amp.getD x 0 + amp.getD (x ||| 2 ^ t) 0)

/-- Modelled from the spec, section 4.2: the whole buffer produced by
the pair algorithm, each of the `2^n` indices written exactly once. -/
def specHadamardUpdate (c : ℂ) (amp : List ℂ) (t n : ℕ) : List ℂ :=
  (List.range (2 ^ n)).map (specNewAmp c amp t)

/-- Outcome of one invocation of the foreign symbol
`hadamard_kernel_execute_c` (set up in circuit.py lines 53-69):
either it returns an `int` status having filled the two
caller-allocated output arrays (their contents after the call are the
two functions), or the call boundary raises. -/
inductive KernelOutcome where
  | returns (status : ℤ) (outRe outIm : ℕ → ℝ) : KernelOutcome
  | raises : KernelOutcome

/-- The foreign kernel as a function of everything the ABI passes it:
xclbin path, the two marshalled input arrays, target qubit, qubit
count and state size (circuit.py lines 91-100). -/
def Kernel : Type := String → List ℝ → List ℝ → ℕ → ℕ → ℕ → KernelOutcome

/-- Marshalling of circuit.py lines 84-87: `input_real[i] = c.real`
for each amplitude, in index order. -/
def marshalRe (s : List ℂ) : List ℝ := s.map Complex.re

/-- Marshalling of circuit.py lines 84-87: `input_imag[i] = c.imag`
for each amplitude, in index order. -/
def marshalIm (s : List ℂ) : List ℝ := s.map Complex.im

/-- De-marshalling of circuit.py lines 103-107: rebuild
`complex(output_real[i], output_imag[i])` for `i in
range(state_size)`. -/
def demarshal (outRe outIm : ℕ → ℝ) (size : ℕ) : List ℂ :=
  (List.range size).map (fun i => ⟨outRe i, outIm i⟩)

/-- Observation of one call of `_apply_hadamard_python` from its
caller: the contents of the caller-owned `state` buffer after the
call, and the returned value or propagated error. -/
def pythonCall (c : ℂ) (s : List ℂ) (t n : ℕ) : List ℂ × Except GateError (List ℂ) :=
  ((pyStateAfter (applyHadamardPythonRunWith c s t n)).state,
   pyOutcome (applyHadamardPythonRunWith c s t n))

/-- The nonzero-status fallback of circuit.py line 110: the python
path is invoked inside the `try` block, so if it raises, the
`except` handler (line 112-114) catches the exception and invokes the
python path a second time; the second outcome is what the caller
sees. -/
def pythonInTry (c : ℂ) (s : List ℂ) (t n : ℕ) : List ℂ × Except GateError (List ℂ) :=
  match applyHadamardPythonRunWith c s t n with
  | .ok st => (st.state, .ok st.result)
  | .error _ => pythonCall c s t n

/-- Store semantics of `_apply_hadamard_cpp` (circuit.py lines
71-114): caller-buffer contents after the call, paired with the
outcome.  With no loaded library (line 73-74) it delegates to the
python path.  Otherwise it marshals the state into fresh input
arrays, calls the kernel, and either de-marshals the outputs (status
0, lines 102-107), falls back to the python path inside the `try`
(nonzero status, line 110), or falls back from the `except` handler
(call boundary raised, lines 112-114). -/
def applyHadamardCppRunWith (c : ℂ) (lib : Option Kernel) (path : String) (s : List ℂ)
    (t n : ℕ) : List ℂ × Except GateError (List ℂ) :=
  match lib with
  | none => pythonCall c s t n
  | some k =>
    match k path (marshalRe s) (marshalIm s) t n s.length with
    | .returns status outRe outIm =>
      if status = 0 then (s, .ok (demarshal outRe outIm s.length))
      else pythonInTry c s t n
    | .raises => pythonCall c s t n

/-- Return value of `_apply_hadamard_cpp` with explicit amplitude
factor. -/
def applyHadamardCppWith (c : ℂ) (lib : Option Kernel) (path : String) (s : List ℂ)
    (t n : ℕ) : Except GateError (List ℂ) :=
  (applyHadamardCppRunWith c lib path s t n).2

/-- The fields of a constructed `CustomDevice` relevant to dispatch:
`xclbin_path`, the `use_fpga` flag, and the loaded C++ library
(`cpp_lib`, `None` when the shared object was absent or failed to
load). -/
structure Device where
  xclbin_path : String
  use_fpga : Bool
  cpp_lib : Option Kernel

/-- Python truthiness of `xclbin_path or "libadf.xclbin"` (circuit.py
line 20): `None` and the empty string both select the default. -/
def xclbinOrDefault : Option String → String
  | none => "libadf.xclbin"
  | some s => if s = "" then "libadf.xclbin" else s

/-- `CustomDevice.__init__` (circuit.py lines 18-30): resolve the
bitstream path, then clear `use_fpga` when it was requested but
`os.path.exists(self.xclbin_path)` is false at construction time;
`_load_cpp_library` is abstracted by the `loaded` argument since it
only consults the build directory. -/
def CustomDevice.init (xclbin_path : Option String) (use_fpga : Bool)
    (fileExists : String → Bool) (loaded : Option Kernel) : Device :=
  let path := xclbinOrDefault xclbin_path
  { xclbin_path := path
    use_fpga := if use_fpga && !(fileExists path) then false else use_fpga
    cpp_lib := loaded }

/-- Gate application as dispatched by a constructed device
(circuit.py line 159 always calls `_apply_hadamard_cpp`; the
`use_fpga` flag is not consulted there). -/
noncomputable def Device.applyHadamard (d : Device) (s : List ℂ) (t n : ℕ) :
    Except GateError (List ℂ) :=
  applyHadamardCppWith invSqrt2C d.cpp_lib d.xclbin_path s t n

/-- The initial state of `execute` (circuit.py lines 153-154):
`np.zeros(2 ** n)` with `state[0] = 1.0`. -/
def initState (n : ℕ) : List ℂ :=
  (List.range (2 ^ n)).map (fun i => if i = 0 then 1 else 0)

/-- `execute` (circuit.py lines 141-162) for a device whose wire
count is `n`: build the zero state and apply the dispatched Hadamard
to every qubit in sequence. -/
noncomputable def executeState (d : Device) (n : ℕ) : Except GateError (List ℂ) :=
  (List.range n).foldlM (fun st q => d.applyHadamard st q n) (initState n)

/-! ### Basic facts about the Except monad and the two-buffer store -/

theorem exceptOkBind {ε α β : Type _} (a : α) (f : α → Except ε β) :
    (Except.ok a >>= f) = f a := rfl

theorem exceptErrBind {ε α β : Type _} (e : ε) (f : α → Except ε β) :
    ((Except.error e : Except ε α) >>= f) = .error e := rfl

theorem pyOutcome_foldlM (c : ℂ) (t : ℕ) (s : List ℂ) :
    ∀ (l : List ℕ) (r : List ℂ),
      pyOutcome (l.foldlM (hadStoreStep c t) ⟨s, r⟩) = l.foldlM (hadPairStep c t) r := by
  intro l
  induction l with
  | nil => intro r; rfl
  | cons a l ih =>
    intro r
    rw [List.foldlM_cons, List.foldlM_cons]
    cases h : hadPairStep c t r a with
    | ok r1 =>
      have hs : hadStoreStep c t ⟨s, r⟩ a = .ok ⟨s, r1⟩ := by simp [hadStoreStep, h]
      rw [hs]
      exact ih r1
    | error e =>
      have hs : hadStoreStep c t ⟨s, r⟩ a = .error (e, ⟨s, r⟩) := by simp [hadStoreStep, h]
      rw [hs]
      rfl

theorem pyStateAfter_foldlM (c : ℂ) (t : ℕ) (s : List ℂ) :
    ∀ (l : List ℕ) (r : List ℂ),
      (pyStateAfter (l.foldlM (hadStoreStep c t) ⟨s, r⟩)).state = s := by
  intro l
  induction l with
  | nil => intro r; rfl
  | cons a l ih =>
    intro r
    rw [List.foldlM_cons]
    cases h : hadPairStep c t r a with
    | ok r1 =>
      have hs : hadStoreStep c t ⟨s, r⟩ a = .ok ⟨s, r1⟩ := by simp [hadStoreStep, h]
      rw [hs]
      exact ih r1
    | error e =>
      have hs : hadStoreStep c t ⟨s, r⟩ a = .error (e, ⟨s, r⟩) := by simp [hadStoreStep, h]
      rw [hs]
      rfl

theorem applyHadamardPythonWith_eq_fold (c : ℂ) (s : List ℂ) (t n : ℕ) :
    applyHadamardPythonWith c s t n = (List.range (2 ^ n)).foldlM (hadPairStep c t) s :=
  pyOutcome_foldlM c t s (List.range (2 ^ n)) s

/-! ### Bit arithmetic toolkit -/

theorem testBit_xor_two_pow (x t : ℕ) : (x ^^^ 2 ^ t).testBit t = !x.testBit t := by
  simp [Nat.testBit_xor, Nat.testBit_two_pow_self]

theorem testBit_xor_two_pow_of_ne {x j t : ℕ} (h : j ≠ t) :
    (x ^^^ 2 ^ t).testBit j = x.testBit j := by
  simp [Nat.testBit_xor, Nat.testBit_two_pow_of_ne (Ne.symm h)]

theorem lt_xor_two_pow_of_testBit_false {x t : ℕ} (h : x.testBit t = false) :
    x < x ^^^ 2 ^ t :=
  Nat.lt_of_testBit t h (by simp [testBit_xor_two_pow, h])
    (fun j hj => (testBit_xor_two_pow_of_ne (by omega)).symm)

theorem xor_two_pow_lt_of_testBit_true {x t : ℕ} (h : x.testBit t = true) :
    x ^^^ 2 ^ t < x :=
  Nat.lt_of_testBit t (by simp [testBit_xor_two_pow, h]) h
    (fun j hj => testBit_xor_two_pow_of_ne (by omega))

theorem or_two_pow_eq_xor {x t : ℕ} (h : x.testBit t = false) :
    x ||| 2 ^ t = x ^^^ 2 ^ t := by
  refine Nat.eq_of_testBit_eq fun j => ?_
  rcases eq_or_ne j t with rfl | hj
  · simp [Nat.testBit_lor, Nat.testBit_xor, Nat.testBit_two_pow_self, h]
  · simp [Nat.testBit_lor, Nat.testBit_xor, Nat.testBit_two_pow_of_ne (Ne.symm hj)]

theorem testBit_true_of_mem_Ico {x k : ℕ} (h1 : 2 ^ k ≤ x) (h2 : x < 2 ^ (k + 1)) :
    x.testBit k = true := by
  have hpos : 0 < 2 ^ k := Nat.pos_pow_of_pos k (by norm_num)
  have hone : 1 ≤ x / 2 ^ k := (Nat.le_div_iff_mul_le hpos).mpr (by omega)
  have htwo : x / 2 ^ k < 2 := (Nat.div_lt_iff_lt_mul hpos).mpr (by rw [mul_comm, ← pow_succ]; exact h2)
  have hdiv : x / 2 ^ k = 1 := by omega
  rw [Nat.testBit_to_div_mod, hdiv]
  decide

theorem two_pow_le_of_testBit_true {x k : ℕ} (h : x.testBit k = true) : 2 ^ k ≤ x := by
  by_contra hc
  push_neg at hc
  rw [Nat.testBit_eq_false_of_lt hc] at h
  exact Bool.noConfusion h

theorem lt_two_pow_of_testBit_false {x k : ℕ} (hb : x.testBit k = false)
    (h : x < 2 ^ (k + 1)) : x < 2 ^ k := by
  by_contra hc
  push_neg at hc
  rw [testBit_true_of_mem_Ico hc h] at hb
  exact Bool.noConfusion hb

/-! ### List access toolkit -/

theorem getD_map_range {α : Type _} (f : ℕ → α) (m x : ℕ) (d : α) :
    ((List.range m).map f).getD x d = if x < m then f x else d := by
  rw [List.getD_eq_getElem?_getD, List.getElem?_map]
  rcases lt_or_ge x m with h | h
  · rw [List.getElem?_range h]; simp [h]
  · rw [List.getElem?_eq_none (by simpa using h)]
    simp [Nat.not_lt.mpr h]

theorem getElem?_eq_some_getD {l : List ℂ} {x : ℕ} (h : x < l.length) :
    l[x]? = some (l.getD x 0) := by
  rw [List.getD_eq_getElem?_getD, List.getElem?_eq_getElem h]
  rfl

/-! ### The software loop computes the pair algorithm of the spec -/

theorem hadFold_invariant (c : ℂ) (t n : ℕ) (ht : t < n) (r : List ℂ)
    (hr : r.length = 2 ^ n) :
    ∀ m, m ≤ 2 ^ n → ∃ rm, (List.range m).foldlM (hadPairStep c t) r = .ok rm ∧
      rm.length = 2 ^ n ∧
      ∀ x, x < 2 ^ n →
        rm[x]? = some (if (if x.testBit t then x ^^^ 2 ^ t else x) < m
                       then specNewAmp c r t x else r.getD x 0) := by
  intro m
  induction m with
  | zero =>
    intro _
    refine ⟨r, rfl, hr, fun x hx => ?_⟩
    rw [getElem?_eq_some_getD (by omega)]
    simp
  | succ m ih =>
    intro hm1
    obtain ⟨rm, hfold, hlen, hget⟩ := ih (by omega)
    have hmn : m < 2 ^ n := by omega
    have hbitlt : 2 ^ t < 2 ^ n := Nat.pow_lt_pow_right (by norm_num) ht
    have hpre : (List.range (m + 1)).foldlM (hadPairStep c t) r = hadPairStep c t rm m := by
      rw [List.range_succ, List.foldlM_append, hfold, exceptOkBind, List.foldlM_cons]
      simp only [List.foldlM_nil]
      exact bind_pure _
    cases hb : m.testBit t with
    | false =>
      have hmj : m < m ^^^ 2 ^ t := lt_xor_two_pow_of_testBit_false hb
      have hjn : m ^^^ 2 ^ t < 2 ^ n := Nat.xor_lt_two_pow hmn hbitlt
      have hjt : (m ^^^ 2 ^ t).testBit t = true := by
        rw [testBit_xor_two_pow, hb]; rfl
      have hjj : (m ^^^ 2 ^ t) ^^^ 2 ^ t = m := Nat.xor_cancel_right _ _
      have hgm : rm[m]? = some (r.getD m 0) := by
        rw [hget m hmn]; simp [hb]
      have hgj : rm[m ^^^ 2 ^ t]? = some (r.getD (m ^^^ 2 ^ t) 0) := by
        rw [hget _ hjn]; simp [hjt, hjj]
      have hstep : hadPairStep c t rm m =
          .ok ((rm.set m (c * (r.getD m 0 + r.getD (m ^^^ 2 ^ t) 0))).set (m ^^^ 2 ^ t)
               (c * (r.getD m 0 - r.getD (m ^^^ 2 ^ t) 0))) := by
        simp only [hadPairStep]
        rw [if_pos hmj, hgm, hgj]
      refine ⟨_, hpre.trans hstep, by simp [hlen], fun x hx => ?_⟩
      by_cases hxj : x = m ^^^ 2 ^ t
      · subst hxj
        rw [List.getElem?_set_self (by simp [hlen, hjn])]
        rw [if_pos (by rw [if_pos hjt, hjj]; omega)]
        rw [specNewAmp, if_pos hjt, hjj]
      · by_cases hxm : x = m
        · subst hxm
          rw [List.getElem?_set_ne (by omega), List.getElem?_set_self (by omega)]
          rw [if_pos (by rw [if_neg (by simp [hb])]; omega)]
          rw [specNewAmp, if_neg (by simp [hb]), or_two_pow_eq_xor hb]
        · rw [List.getElem?_set_ne (fun hEq => hxj hEq.symm),
            List.getElem?_set_ne (fun hEq => hxm hEq.symm), hget x hx]
          have hlo : (if x.testBit t then x ^^^ 2 ^ t else x) ≠ m := by
            cases hxb : x.testBit t with
            | false => rw [if_neg (by simp [hxb])]; exact hxm
            | true =>
              rw [if_pos rfl]
              intro hEq
              apply hxj
              have h2 := congrArg (fun y => y ^^^ 2 ^ t) hEq
              simpa [Nat.xor_cancel_right] using h2
          have hcond : ((if x.testBit t then x ^^^ 2 ^ t else x) < m + 1) ↔
              ((if x.testBit t then x ^^^ 2 ^ t else x) < m) := by omega
          rw [if_congr hcond rfl rfl]
    | true =>
      have hjm : m ^^^ 2 ^ t < m := xor_two_pow_lt_of_testBit_true hb
      have hstep : hadPairStep c t rm m = .ok rm := by
        simp only [hadPairStep]
        rw [if_neg (by omega)]
      refine ⟨rm, hpre.trans hstep, hlen, fun x hx => ?_⟩
      rw [hget x hx]
      have hlo : (if x.testBit t then x ^^^ 2 ^ t else x) ≠ m := by
        cases hxb : x.testBit t with
        | false =>
          rw [if_neg (by simp [hxb])]
          intro hEq
          rw [hEq] at hxb
          rw [hxb] at hb
          exact Bool.noConfusion hb
        | true =>
          rw [if_pos rfl]
          intro hEq
          have h2 : m.testBit t = false := by
            rw [← hEq, testBit_xor_two_pow, hxb]
            rfl
          rw [h2] at hb
          exact Bool.noConfusion hb
      have hcond : ((if x.testBit t then x ^^^ 2 ^ t else x) < m + 1) ↔
          ((if x.testBit t then x ^^^ 2 ^ t else x) < m) := by omega
      rw [if_congr hcond rfl rfl]

theorem length_specHadamardUpdate (c : ℂ) (s : List ℂ) (t n : ℕ) :
    (specHadamardUpdate c s t n).length = 2 ^ n := by
  simp [specHadamardUpdate]

theorem applyHadamardPythonWith_valid (c : ℂ) (s : List ℂ) (t n : ℕ) (ht : t < n)
    (hlen : s.length = 2 ^ n) :
    applyHadamardPythonWith c s t n = .ok (specHadamardUpdate c s t n) := by
  rw [applyHadamardPythonWith_eq_fold]
  obtain ⟨rm, hfold, hlen2, hget⟩ := hadFold_invariant c t n ht s hlen (2 ^ n) le_rfl
  rw [hfold]
  congr 1
  refine List.ext_getElem? fun x => ?_
  rcases lt_or_ge x (2 ^ n) with hx | hx
  · rw [hget x hx]
    have hlo : (if x.testBit t then x ^^^ 2 ^ t else x) < 2 ^ n := by
      cases hxb : x.testBit t with
      | false => rw [if_neg (by simp)]; exact hx
      | true =>
        rw [if_pos rfl]
        exact Nat.xor_lt_two_pow hx (Nat.pow_lt_pow_right (by norm_num) ht)
    rw [if_pos hlo]
    simp only [specHadamardUpdate, List.getElem?_map, List.getElem?_range hx]
    rfl
  · rw [List.getElem?_eq_none (by rw [hlen2]; exact hx),
      List.getElem?_eq_none (by rw [length_specHadamardUpdate]; exact hx)]

/-- Claim C1: for every state vector of length 2 to the n and every
target qubit t below n, the software-path Hadamard update returns
exactly the buffer defined by the pair algorithm of the spec (each
unordered index pair combined once, every index written exactly
once); the outcome equality of the two whole buffers captures this. -/
theorem hadamard_python_matches_spec (s : List ℂ) (t n : ℕ) (ht : t < n)
    (hlen : s.length = 2 ^ n) :
    applyHadamardPython s t n = .ok (specHadamardUpdate invSqrt2C s t n) :=
  applyHadamardPythonWith_valid invSqrt2C s t n ht hlen

/-- Witness for claim C1 at the one-qubit state with amplitudes one
and zero and target qubit zero. -/
theorem hadamard_python_matches_spec_witness :
    (0 : ℕ) < 1 ∧ ([1, 0] : List ℂ).length = 2 ^ 1 ∧
      applyHadamardPython [1, 0] 0 1 = .ok (specHadamardUpdate invSqrt2C [1, 0] 0 1) :=
  ⟨by decide, by decide, hadamard_python_matches_spec [1, 0] 0 1 (by decide) (by decide)⟩

/-- Claim C9: the software Hadamard update is pure with respect to
its input: whatever the state, target and qubit count (even invalid
ones), after the call the caller-owned input buffer holds exactly the
amplitudes it held before, element for element; all writes went to
the fresh copy that is returned. -/
theorem hadamard_python_input_unchanged (s : List ℂ) (t n : ℕ) :
    (pyStateAfter (applyHadamardPythonRunWith invSqrt2C s t n)).state = s :=
  pyStateAfter_foldlM invSqrt2C t s (List.range (2 ^ n)) s

/-! ### Out-of-range target qubit -/

theorem hadFold_oob (c : ℂ) (s : List ℂ) (t n : ℕ) (hlen : s.length = 2 ^ n)
    (htn : n ≤ t) :
    (List.range (2 ^ n)).foldlM (hadPairStep c t) s = .error .indexError := by
  obtain ⟨m, hm⟩ : ∃ m, 2 ^ n = m + 1 :=
    ⟨2 ^ n - 1, by have := Nat.pos_pow_of_pos n (show 0 < 2 by norm_num); omega⟩
  rw [hm, List.range_succ_eq_map, List.foldlM_cons]
  have h0j : (0 : ℕ) < 0 ^^^ 2 ^ t := by
    rw [Nat.zero_xor]
    exact Nat.pos_pow_of_pos t (by norm_num)
  have hnone : s[(0 : ℕ) ^^^ 2 ^ t]? = none := by
    refine List.getElem?_eq_none ?_
    rw [Nat.zero_xor, hlen]
    exact Nat.pow_le_pow_right (by norm_num) htn
  have hsome : s[(0 : ℕ)]? = some (s.getD 0 0) := by
    refine getElem?_eq_some_getD ?_
    have := Nat.pos_pow_of_pos n (show 0 < 2 by norm_num)
    omega
  have hstep : hadPairStep c t s 0 = .error .indexError := by
    simp only [hadPairStep]
    rw [if_pos h0j, hsome, hnone]
  rw [hstep]
  rfl

theorem applyHadamardPythonWith_oob (c : ℂ) (s : List ℂ) (t n : ℕ)
    (hlen : s.length = 2 ^ n) (htn : n ≤ t) :
    applyHadamardPythonWith c s t n = .error .indexError := by
  rw [applyHadamardPythonWith_eq_fold, hadFold_oob c s t n hlen htn]

/-- Counterexample to claim C3 as stated: on a 2-qubit register with
target qubit 5, the gate application fails, but with the
index-out-of-range error raised by the unguarded array access in the
update loop, not with the InvalidQubitIndex validation error the
claim names (no validation of the target qubit exists in the code). -/
theorem hadamard_invalid_target_counterexample :
    applyHadamardPython [1, 0, 0, 0] 5 2 = .error .indexError ∧
    applyHadamardPython [1, 0, 0, 0] 5 2 ≠ .error .invalidQubitIndex := by
  have h : applyHadamardPython [1, 0, 0, 0] 5 2 = .error .indexError :=
    applyHadamardPythonWith_oob invSqrt2C [1, 0, 0, 0] 5 2 (by decide) (by decide)
  refine ⟨h, ?_⟩
  rw [h]
  simp

/-- Claim C3 (amended): for every state of register length and every
target qubit at or beyond the qubit count, the gate application fails
-- with the index-out-of-range error of the unguarded array access,
there being no InvalidQubitIndex validation in the code -- the
failure propagates to the caller (also through the dispatcher when no
library is loaded), and the input state is unchanged. -/
theorem hadamard_invalid_target (s : List ℂ) (t n : ℕ) (path : String)
    (hlen : s.length = 2 ^ n) (htn : n ≤ t) :
    applyHadamardPython s t n = .error .indexError ∧
    applyHadamardPython s t n ≠ .error .invalidQubitIndex ∧
    (pyStateAfter (applyHadamardPythonRunWith invSqrt2C s t n)).state = s ∧
    applyHadamardCppWith invSqrt2C none path s t n = .error .indexError := by
  have h : applyHadamardPython s t n = .error .indexError :=
    applyHadamardPythonWith_oob invSqrt2C s t n hlen htn
  refine ⟨h, by rw [h]; simp, pyStateAfter_foldlM invSqrt2C t s (List.range (2 ^ n)) s, h⟩

/-- Witness for the amended claim C3 at a 2-qubit register with
target qubit 5. -/
theorem hadamard_invalid_target_witness :
    ([0, 1, 0, 0] : List ℂ).length = 2 ^ 2 ∧ 2 ≤ 5 ∧
      (applyHadamardPython [0, 1, 0, 0] 5 2 = .error .indexError ∧
       applyHadamardPython [0, 1, 0, 0] 5 2 ≠ .error .invalidQubitIndex ∧
       (pyStateAfter (applyHadamardPythonRunWith invSqrt2C [0, 1, 0, 0] 5 2)).state
          = [0, 1, 0, 0] ∧
       applyHadamardCppWith invSqrt2C none "libadf.xclbin" [0, 1, 0, 0] 5 2
          = .error .indexError) :=
  ⟨by decide, by decide,
    hadamard_invalid_target [0, 1, 0, 0] 5 2 "libadf.xclbin" (by decide) (by decide)⟩

/-! ### The accelerated dispatch and its fallback -/

theorem pythonInTry_snd (c : ℂ) (s : List ℂ) (t n : ℕ) :
    (pythonInTry c s t n).2 = applyHadamardPythonWith c s t n := by
  unfold pythonInTry
  cases h : applyHadamardPythonRunWith c s t n with
  | ok st => simp [applyHadamardPythonWith, pyOutcome, h]
  | error e => rfl

/-- Claim C2: when the kernel call reports a nonzero status, or the
call boundary raises, the dispatcher returns exactly what the
software path produces on the same input state and target qubit, and
for a well-formed request no error reaches the caller (the outcome is
the ok spec buffer). -/
theorem cpp_falls_back_to_python (k : Kernel) (path : String) (s : List ℂ) (t n : ℕ)
    (ht : t < n) (hlen : s.length = 2 ^ n)
    (hfail : k path (marshalRe s) (marshalIm s) t n s.length = .raises ∨
      ∃ status outRe outIm, status ≠ 0 ∧
        k path (marshalRe s) (marshalIm s) t n s.length = .returns status outRe outIm) :
    applyHadamardCppWith invSqrt2C (some k) path s t n = applyHadamardPython s t n ∧
    applyHadamardCppWith invSqrt2C (some k) path s t n =
      .ok (specHadamardUpdate invSqrt2C s t n) := by
  have heq : applyHadamardCppWith invSqrt2C (some k) path s t n
      = applyHadamardPython s t n := by
    rcases hfail with hr | ⟨status, outRe, outIm, hst, hret⟩
    · simp only [applyHadamardCppWith, applyHadamardCppRunWith, hr]
      rfl
    · simp only [applyHadamardCppWith, applyHadamardCppRunWith, hret]
      rw [if_neg hst]
      exact pythonInTry_snd invSqrt2C s t n
  exact ⟨heq, heq.trans (hadamard_python_matches_spec s t n ht hlen)⟩

/-- Witness for claim C2: a kernel that always reports status 1, on
the one-qubit state with amplitudes one and zero. -/
theorem cpp_falls_back_to_python_witness :
    (0 : ℕ) < 1 ∧ ([1, 0] : List ℂ).length = 2 ^ 1 ∧
      (applyHadamardCppWith invSqrt2C
          (some (fun _ _ _ _ _ _ => .returns 1 (fun _ => 0) (fun _ => 0))) "p" [1, 0] 0 1
        = applyHadamardPython [1, 0] 0 1 ∧
       applyHadamardCppWith invSqrt2C
          (some (fun _ _ _ _ _ _ => .returns 1 (fun _ => 0) (fun _ => 0))) "p" [1, 0] 0 1
        = .ok (specHadamardUpdate invSqrt2C [1, 0] 0 1)) :=
  ⟨by decide, by decide,
    cpp_falls_back_to_python (fun _ _ _ _ _ _ => .returns 1 (fun _ => 0) (fun _ => 0))
      "p" [1, 0] 0 1 (by decide) (by decide)
      (Or.inr ⟨1, fun _ => 0, fun _ => 0, by decide, rfl⟩)⟩

/-- Claim C10: when the shared library failed to load, the dispatcher
delegates directly to the software path and returns its result, even
on a device whose use_fpga flag is still true; for a well-formed
request no error is raised. -/
theorem cpp_no_library_delegates (d : Device) (hfp : d.use_fpga = true)
    (hlib : d.cpp_lib = none) (s : List ℂ) (t n : ℕ) (ht : t < n)
    (hlen : s.length = 2 ^ n) :
    d.applyHadamard s t n = applyHadamardPython s t n ∧
    d.applyHadamard s t n = .ok (specHadamardUpdate invSqrt2C s t n) := by
  have heq : d.applyHadamard s t n = applyHadamardPython s t n := by
    simp only [Device.applyHadamard, hlib, applyHadamardCppWith, applyHadamardCppRunWith]
    rfl
  exact ⟨heq, heq.trans (hadamard_python_matches_spec s t n ht hlen)⟩

/-- Witness for claim C10: a device with use_fpga true and no loaded
library, on the one-qubit state with amplitudes one and zero. -/
theorem cpp_no_library_delegates_witness :
    (Device.mk "libadf.xclbin" true none).use_fpga = true ∧
    (Device.mk "libadf.xclbin" true none).cpp_lib = none ∧
    (0 : ℕ) < 1 ∧ ([1, 0] : List ℂ).length = 2 ^ 1 ∧
      ((Device.mk "libadf.xclbin" true none).applyHadamard [1, 0] 0 1
        = applyHadamardPython [1, 0] 0 1 ∧
       (Device.mk "libadf.xclbin" true none).applyHadamard [1, 0] 0 1
        = .ok (specHadamardUpdate invSqrt2C [1, 0] 0 1)) :=
  ⟨rfl, rfl, by decide, by decide,
    cpp_no_library_delegates (Device.mk "libadf.xclbin" true none) rfl rfl [1, 0] 0 1
      (by decide) (by decide)⟩

/-- Claim C8: the accelerated path never mutates the input buffer:
whatever the kernel does (success, nonzero status, raise) and whether
or not a library is loaded, after the dispatcher call the caller
buffer holds exactly the amplitudes it held before; only a fully
successful call produces a fresh replacement buffer. -/
theorem cpp_input_unchanged (c : ℂ) (lib : Option Kernel) (path : String) (s : List ℂ)
    (t n : ℕ) :
    (applyHadamardCppRunWith c lib path s t n).1 = s := by
  have hstate : (pyStateAfter (applyHadamardPythonRunWith c s t n)).state = s :=
    pyStateAfter_foldlM c t s (List.range (2 ^ n)) s
  cases lib with
  | none => exact hstate
  | some k =>
    simp only [applyHadamardCppRunWith]
    cases hk : k path (marshalRe s) (marshalIm s) t n s.length with
    | returns status outRe outIm =>
      by_cases hst : status = 0
      · simp [hst]
      · simp only [if_neg hst]
        unfold pythonInTry
        cases hrun : applyHadamardPythonRunWith c s t n with
        | ok st =>
          rw [hrun] at hstate
          exact hstate
        | error e => exact hstate
    | raises => exact hstate

/-! ### Construction-time downgrade of the use_fpga flag -/

/-- Counterexample to claim C7 as stated: build a device requesting
acceleration with a bitstream path that does not exist, so the
use_fpga flag is downgraded at construction; load a kernel that
succeeds with an all-zero output buffer.  The next gate application
still invokes the kernel and returns its buffer, which differs from
the software-path result -- so the effective mode is not
software-only for the lifetime of the configuration. -/
theorem config_downgrade_counterexample :
    (CustomDevice.init (some "missing.xclbin") true (fun _ => false)
        (some (fun _ _ _ _ _ _ => .returns 0 (fun _ => 0) (fun _ => 0)))).use_fpga
      = false ∧
    (CustomDevice.init (some "missing.xclbin") true (fun _ => false)
        (some (fun _ _ _ _ _ _ => .returns 0 (fun _ => 0) (fun _ => 0)))).applyHadamard
        [1, 0] 0 1
      ≠ applyHadamardPython [1, 0] 0 1 := by
  have hr2 : List.range 2 = [0, 1] := by decide
  have hc : invSqrt2C ≠ 0 := by
    simp only [invSqrt2C, invSqrt2]
    rw [Complex.ofReal_ne_zero]
    have h2 : (0 : ℝ) < Real.sqrt 2 := Real.sqrt_pos.mpr (by norm_num)
    positivity
  have hL : (CustomDevice.init (some "missing.xclbin") true (fun _ => false)
      (some (fun _ _ _ _ _ _ => .returns 0 (fun _ => 0) (fun _ => 0)))).applyHadamard
      [1, 0] 0 1 = .ok (demarshal (fun _ => 0) (fun _ => 0) 2) := rfl
  have hdem : demarshal (fun _ => (0 : ℝ)) (fun _ => (0 : ℝ)) 2 = [0, 0] := by
    simp [demarshal, hr2, Complex.ext_iff]
  have hspec : specHadamardUpdate invSqrt2C [1, 0] 0 1 = [invSqrt2C, invSqrt2C] := by
    simp [specHadamardUpdate, hr2, specNewAmp,
      show ([1, 0] : List ℂ)[1] = 0 from rfl, show ([1, 0] : List ℂ)[0] = 1 from rfl]
  have hpy : applyHadamardPython [1, 0] 0 1 = .ok [invSqrt2C, invSqrt2C] :=
    (applyHadamardPythonWith_valid invSqrt2C [1, 0] 0 1 (by decide) (by decide)).trans
      (by rw [hspec])
  refine ⟨rfl, ?_⟩
  rw [hL, hdem, hpy]
  intro hEq
  have hlists : ([0, 0] : List ℂ) = [invSqrt2C, invSqrt2C] := Except.ok.inj hEq
  have hhead : (0 : ℂ) = invSqrt2C := by
    have h0 := congrArg (fun l => l.getD 0 0) hlists
    simpa using h0
  exact hc hhead.symm

/-- Claim C7 (amended): if acceleration is requested but the
bitstream path does not resolve to an existing file at construction
time, the use_fpga flag is set to false for the lifetime of the
configuration, and file existence is consulted only at construction:
the dispatch of a constructed device is identical under any
call-time file-existence state.  (The downgrade, however, does not
make execution software-only: dispatch never consults the flag, as
the counterexample shows.) -/
theorem config_downgrade_flag (p : Option String) (fe fe2 : String → Bool)
    (lk : Option Kernel) (s : List ℂ) (t n : ℕ)
    (hmiss : fe (xclbinOrDefault p) = false) :
    (CustomDevice.init p true fe lk).use_fpga = false ∧
    (CustomDevice.init p true fe lk).applyHadamard s t n
      = (CustomDevice.init p true fe2 lk).applyHadamard s t n := by
  constructor
  · simp [CustomDevice.init, hmiss]
  · rfl

/-- Witness for the amended claim C7 with a missing bitstream file
and an empty library. -/
theorem config_downgrade_flag_witness :
    ((fun _ => false) : String → Bool) (xclbinOrDefault (some "missing.xclbin")) = false ∧
    ((CustomDevice.init (some "missing.xclbin") true (fun _ => false) none).use_fpga = false ∧
     (CustomDevice.init (some "missing.xclbin") true (fun _ => false) none).applyHadamard
        [1, 0] 0 1
      = (CustomDevice.init (some "missing.xclbin") true (fun _ => true) none).applyHadamard
        [1, 0] 0 1) :=
  ⟨rfl, config_downgrade_flag (some "missing.xclbin") (fun _ => false) (fun _ => true)
    none [1, 0] 0 1 rfl⟩

/-! ### The Hadamard constant -/

theorem invSqrt2_sq : invSqrt2 ^ 2 = 1 / 2 := by
  rw [invSqrt2, div_pow, one_pow, Real.sq_sqrt (by norm_num : (0 : ℝ) ≤ 2)]

theorem two_mul_invSqrt2C_sq : (2 : ℂ) * invSqrt2C ^ 2 = 1 := by
  rw [invSqrt2C, ← Complex.ofReal_pow, invSqrt2_sq]
  norm_num

theorem normSq_invSqrt2C : Complex.normSq invSqrt2C = 1 / 2 := by
  rw [invSqrt2C, Complex.normSq_ofReal, ← pow_two, invSqrt2_sq]

/-! ### Self-inversion of the pair algorithm -/

theorem getElem?_specHadamardUpdate {c : ℂ} {s : List ℂ} {t n x : ℕ} (hx : x < 2 ^ n) :
    (specHadamardUpdate c s t n)[x]? = some (specNewAmp c s t x) := by
  rw [specHadamardUpdate, List.getElem?_map, List.getElem?_range hx]
  rfl

theorem getD_specHadamardUpdate {c : ℂ} {s : List ℂ} {t n x : ℕ} (hx : x < 2 ^ n) :
    (specHadamardUpdate c s t n).getD x 0 = specNewAmp c s t x := by
  rw [List.getD_eq_getElem?_getD, getElem?_specHadamardUpdate hx]
  rfl

theorem specHadamardUpdate_involutive (c : ℂ) (hc : (2 : ℂ) * c ^ 2 = 1) (s : List ℂ)
    (t n : ℕ) (ht : t < n) (hlen : s.length = 2 ^ n) :
    specHadamardUpdate c (specHadamardUpdate c s t n) t n = s := by
  refine List.ext_getElem? fun x => ?_
  rcases lt_or_ge x (2 ^ n) with hx | hx
  · rw [getElem?_specHadamardUpdate hx, getElem?_eq_some_getD (by rw [hlen]; exact hx)]
    congr 1
    have hbit : 2 ^ t < 2 ^ n := Nat.pow_lt_pow_right (by norm_num) ht
    have hxj : x ^^^ 2 ^ t < 2 ^ n := Nat.xor_lt_two_pow hx hbit
    cases hxb : x.testBit t with
    | false =>
      have hjb : (x ^^^ 2 ^ t).testBit t = true := by
        rw [testBit_xor_two_pow, hxb]; rfl
      rw [specNewAmp, if_neg (by simp [hxb]), or_two_pow_eq_xor hxb,
        getD_specHadamardUpdate hx, getD_specHadamardUpdate hxj]
      rw [specNewAmp, if_neg (by simp [hxb]), or_two_pow_eq_xor hxb]
      rw [specNewAmp, if_pos hjb, Nat.xor_cancel_right]
      linear_combination s.getD x 0 * hc
    | true =>
      have hjb : (x ^^^ 2 ^ t).testBit t = false := by
        rw [testBit_xor_two_pow, hxb]; rfl
      rw [specNewAmp, if_pos hxb, getD_specHadamardUpdate hxj, getD_specHadamardUpdate hx]
      rw [specNewAmp, if_neg (by simp [hjb]), or_two_pow_eq_xor hjb, Nat.xor_cancel_right]
      rw [specNewAmp, if_pos hxb]
      linear_combination s.getD x 0 * hc
  · rw [List.getElem?_eq_none (by rw [length_specHadamardUpdate]; exact hx),
      List.getElem?_eq_none (by rw [hlen]; exact hx)]

/-- Claim C4: for every state vector of register length and every
valid target qubit, applying the software Hadamard update twice with
the same target returns the original state exactly, over exact reals
(the transform is self-inverse). -/
theorem hadamard_self_inverse (s : List ℂ) (t n : ℕ) (ht : t < n)
    (hlen : s.length = 2 ^ n) :
    ∃ s1, applyHadamardPython s t n = .ok s1 ∧ applyHadamardPython s1 t n = .ok s := by
  refine ⟨specHadamardUpdate invSqrt2C s t n,
    applyHadamardPythonWith_valid invSqrt2C s t n ht hlen, ?_⟩
  have h2 := applyHadamardPythonWith_valid invSqrt2C (specHadamardUpdate invSqrt2C s t n)
    t n ht (length_specHadamardUpdate invSqrt2C s t n)
  rw [specHadamardUpdate_involutive invSqrt2C two_mul_invSqrt2C_sq s t n ht hlen] at h2
  exact h2

/-- Witness for claim C4 at the one-qubit state with amplitudes one
and zero and target qubit zero. -/
theorem hadamard_self_inverse_witness :
    (0 : ℕ) < 1 ∧ ([1, 0] : List ℂ).length = 2 ^ 1 ∧
      ∃ s1, applyHadamardPython [1, 0] 0 1 = .ok s1 ∧
        applyHadamardPython s1 0 1 = .ok [1, 0] :=
  ⟨by decide, by decide, hadamard_self_inverse [1, 0] 0 1 (by decide) (by decide)⟩

/-! ### Unitarity of the update -/

theorem normSq_add_normSq_sub (a b : ℂ) :
    Complex.normSq (a + b) + Complex.normSq (a - b)
      = 2 * (Complex.normSq a + Complex.normSq b) := by
  simp only [Complex.normSq_apply, Complex.add_re, Complex.add_im, Complex.sub_re,
    Complex.sub_im]
  ring

theorem sum_pairs (n t : ℕ) (ht : t < n) (F : ℕ → ℝ) :
    ∑ x ∈ Finset.range (2 ^ n), F x
      = ∑ x ∈ (Finset.range (2 ^ n)).filter (fun x => x.testBit t = false),
          (F x + F (x ^^^ 2 ^ t)) := by
  have hbit : 2 ^ t < 2 ^ n := Nat.pow_lt_pow_right (by norm_num) ht
  rw [← Finset.sum_filter_add_sum_filter_not (Finset.range (2 ^ n))
      (fun x => x.testBit t = false) F]
  rw [Finset.sum_add_distrib]
  congr 1
  refine Finset.sum_nbij' (fun x => x ^^^ 2 ^ t) (fun x => x ^^^ 2 ^ t) ?_ ?_ ?_ ?_ ?_
  · intro a ha
    simp only [Finset.mem_filter, Finset.mem_range] at ha ⊢
    refine ⟨Nat.xor_lt_two_pow ha.1 hbit, ?_⟩
    rw [testBit_xor_two_pow]
    cases hab : a.testBit t with
    | false => exact absurd hab ha.2
    | true => rfl
  · intro a ha
    simp only [Finset.mem_filter, Finset.mem_range] at ha ⊢
    refine ⟨Nat.xor_lt_two_pow ha.1 hbit, ?_⟩
    rw [testBit_xor_two_pow, ha.2]
    simp
  · intro a _
    exact Nat.xor_cancel_right _ _
  · intro a _
    exact Nat.xor_cancel_right _ _
  · intro a _
    rw [Nat.xor_cancel_right]

theorem specHadamardUpdate_normSq (c : ℂ) (hc : Complex.normSq c = 1 / 2) (s : List ℂ)
    (t n : ℕ) (ht : t < n) (hlen : s.length = 2 ^ n) :
    ∑ x ∈ Finset.range (2 ^ n), Complex.normSq ((specHadamardUpdate c s t n).getD x 0)
      = ∑ x ∈ Finset.range (2 ^ n), Complex.normSq (s.getD x 0) := by
  rw [sum_pairs n t ht (fun x => Complex.normSq ((specHadamardUpdate c s t n).getD x 0)),
    sum_pairs n t ht (fun x => Complex.normSq (s.getD x 0))]
  refine Finset.sum_congr rfl fun x hx => ?_
  simp only [Finset.mem_filter, Finset.mem_range] at hx
  obtain ⟨hxr, hxb⟩ := hx
  have hbit : 2 ^ t < 2 ^ n := Nat.pow_lt_pow_right (by norm_num) ht
  have hxj : x ^^^ 2 ^ t < 2 ^ n := Nat.xor_lt_two_pow hxr hbit
  have hjb : (x ^^^ 2 ^ t).testBit t = true := by
    rw [testBit_xor_two_pow, hxb]; rfl
  rw [getD_specHadamardUpdate hxr, getD_specHadamardUpdate hxj]
  rw [specNewAmp, if_neg (by simp [hxb]), or_two_pow_eq_xor hxb]
  rw [specNewAmp, if_pos hjb, Nat.xor_cancel_right]
  rw [Complex.normSq_mul, Complex.normSq_mul, hc]
  have hpar := normSq_add_normSq_sub (s.getD x 0) (s.getD (x ^^^ 2 ^ t) 0)
  linarith

/-- Claim C5: for every normalized input state (unit sum of squared
magnitudes) and every valid target qubit, the state returned by the
software Hadamard update is also normalized: the sum of squared
magnitudes is preserved exactly, over exact reals. -/
theorem hadamard_preserves_norm (s : List ℂ) (t n : ℕ) (ht : t < n)
    (hlen : s.length = 2 ^ n)
    (hnorm : ∑ x ∈ Finset.range (2 ^ n), Complex.normSq (s.getD x 0) = 1) :
    ∃ r, applyHadamardPython s t n = .ok r ∧
      ∑ x ∈ Finset.range (2 ^ n), Complex.normSq (r.getD x 0) = 1 := by
  refine ⟨specHadamardUpdate invSqrt2C s t n,
    applyHadamardPythonWith_valid invSqrt2C s t n ht hlen, ?_⟩
  rw [specHadamardUpdate_normSq invSqrt2C normSq_invSqrt2C s t n ht hlen, hnorm]

/-- Witness for claim C5 at the normalized one-qubit state with
amplitudes one and zero. -/
theorem hadamard_preserves_norm_witness :
    (0 : ℕ) < 1 ∧ ([1, 0] : List ℂ).length = 2 ^ 1 ∧
      (∑ x ∈ Finset.range (2 ^ 1), Complex.normSq (([1, 0] : List ℂ).getD x 0) = 1) ∧
      ∃ r, applyHadamardPython [1, 0] 0 1 = .ok r ∧
        ∑ x ∈ Finset.range (2 ^ 1), Complex.normSq (r.getD x 0) = 1 := by
  have hnorm : ∑ x ∈ Finset.range (2 ^ 1), Complex.normSq (([1, 0] : List ℂ).getD x 0) = 1 := by
    rw [show (2 : ℕ) ^ 1 = 2 from rfl, Finset.sum_range_succ, Finset.sum_range_succ,
      Finset.sum_range_zero]
    norm_num [show ([1, 0] : List ℂ).getD 0 0 = 1 from rfl,
      show ([1, 0] : List ℂ).getD 1 0 = 0 from rfl]
  exact ⟨by decide, by decide, hnorm,
    hadamard_preserves_norm [1, 0] 0 1 (by decide) (by decide) hnorm⟩

/-! ### Circuit execution builds the uniform superposition -/

theorem sqrt_two_pow (n : ℕ) : Real.sqrt (2 ^ n) = Real.sqrt 2 ^ n := by
  induction n with
  | zero => simp
  | succ k ih => rw [pow_succ, pow_succ, Real.sqrt_mul (by positivity), ih]

theorem invSqrt2_pow (n : ℕ) : invSqrt2 ^ n = (Real.sqrt (2 ^ n))⁻¹ := by
  rw [invSqrt2, sqrt_two_pow, one_div, inv_pow]

theorem invSqrt2C_pow (n : ℕ) : invSqrt2C ^ n = (((Real.sqrt (2 ^ n))⁻¹ : ℝ) : ℂ) := by
  rw [invSqrt2C, ← Complex.ofReal_pow, invSqrt2_pow]


theorem executeSW_stage (n : ℕ) : ∀ k, k ≤ n →
    (List.range k).foldlM (fun st q => applyHadamardPythonWith invSqrt2C st q n)
        (initState n)
      = .ok ((List.range (2 ^ n)).map (fun x => if x < 2 ^ k then invSqrt2C ^ k else 0)) := by
  intro k
  induction k with
  | zero =>
    intro _
    have h0 : initState n
        = (List.range (2 ^ n)).map (fun x => if x < 2 ^ 0 then invSqrt2C ^ 0 else 0) := by
      rw [initState]
      refine List.map_congr_left fun x _ => ?_
      by_cases h : x = 0
      · simp [h]
      · rw [if_neg h, if_neg (by simp [Nat.lt_one_iff, h])]
    rw [List.range_zero, List.foldlM_nil, h0]
    rfl
  | succ k ih =>
    intro hk1
    have hkn : k < n := by omega
    have hlenP : ((List.range (2 ^ n)).map
        (fun x => if x < 2 ^ k then invSqrt2C ^ k else 0)).length = 2 ^ n := by simp
    have hgP : ∀ y, ((List.range (2 ^ n)).map
        (fun x => if x < 2 ^ k then invSqrt2C ^ k else 0)).getD y 0
        = if y < 2 ^ k then invSqrt2C ^ k else 0 := by
      intro y
      rw [getD_map_range]
      by_cases hy : y < 2 ^ n
      · rw [if_pos hy]
      · have hle : 2 ^ k ≤ 2 ^ n := Nat.pow_le_pow_right (by norm_num) (le_of_lt hkn)
        rw [if_neg hy, if_neg (by omega)]
    have hstage : specHadamardUpdate invSqrt2C
        ((List.range (2 ^ n)).map (fun x => if x < 2 ^ k then invSqrt2C ^ k else 0)) k n
        = (List.range (2 ^ n)).map
            (fun x => if x < 2 ^ (k + 1) then invSqrt2C ^ (k + 1) else 0) := by
      refine List.ext_getElem? fun x => ?_
      rcases lt_or_ge x (2 ^ n) with hx | hx
      · rw [getElem?_specHadamardUpdate hx, List.getElem?_map, List.getElem?_range hx]
        simp only [Option.map_some']
        congr 1
        have hbit : 2 ^ k < 2 ^ n := Nat.pow_lt_pow_right (by norm_num) hkn
        have hbit1 : 2 ^ k < 2 ^ (k + 1) := Nat.pow_lt_pow_right (by norm_num) (by omega)
        cases hxb : x.testBit k with
        | false =>
          have hjk : ¬ (x ^^^ 2 ^ k < 2 ^ k) := by
            intro hlt
            have hjb : (x ^^^ 2 ^ k).testBit k = true := by
              rw [testBit_xor_two_pow, hxb]; rfl
            have := two_pow_le_of_testBit_true hjb
            omega
          rw [specNewAmp, if_neg (by simp [hxb]), or_two_pow_eq_xor hxb, hgP, hgP,
            if_neg hjk]
          by_cases h1 : x < 2 ^ k
          · rw [if_pos h1, if_pos (by omega)]
            ring
          · have hx2 : ¬ x < 2 ^ (k + 1) := by
              intro hlt
              exact h1 (lt_two_pow_of_testBit_false hxb hlt)
            rw [if_neg h1, if_neg hx2]
            ring
        | true =>
          have hxk : 2 ^ k ≤ x := two_pow_le_of_testBit_true hxb
          have hjb : (x ^^^ 2 ^ k).testBit k = false := by
            rw [testBit_xor_two_pow, hxb]; rfl
          rw [specNewAmp, if_pos hxb, hgP, hgP, if_neg (show ¬ (x < 2 ^ k) by omega)]
          by_cases h2 : x < 2 ^ (k + 1)
          · have hjlt : x ^^^ 2 ^ k < 2 ^ (k + 1) := Nat.xor_lt_two_pow h2 hbit1
            have hjk : x ^^^ 2 ^ k < 2 ^ k := lt_two_pow_of_testBit_false hjb hjlt
            rw [if_pos hjk, if_pos h2]
            ring
          · have hjge : ¬ (x ^^^ 2 ^ k < 2 ^ k) := by
              intro hlt
              have hxx : x = (x ^^^ 2 ^ k) ^^^ 2 ^ k := (Nat.xor_cancel_right _ _).symm
              have hxlt : x < 2 ^ (k + 1) := by
                rw [hxx]
                exact Nat.xor_lt_two_pow (lt_trans hlt hbit1) hbit1
              exact h2 hxlt
            rw [if_neg hjge, if_neg h2]
            ring
      · rw [List.getElem?_eq_none (by rw [length_specHadamardUpdate]; exact hx),
          List.getElem?_eq_none (by simpa using hx)]
    rw [List.range_succ, List.foldlM_append, ih (by omega), exceptOkBind, List.foldlM_cons]
    simp only [List.foldlM_nil]
    rw [bind_pure]
    rw [applyHadamardPythonWith_valid invSqrt2C _ k n hkn hlenP, hstage]

theorem executeState_lib_none (path : String) (uf : Bool) (n : ℕ) :
    executeState ⟨path, uf, none⟩ n
      = .ok ((List.range (2 ^ n)).map (fun _ => invSqrt2C ^ n)) := by
  have h := executeSW_stage n n le_rfl
  have hconst : (List.range (2 ^ n)).map (fun x => if x < 2 ^ n then invSqrt2C ^ n else 0)
      = (List.range (2 ^ n)).map (fun _ => invSqrt2C ^ n) :=
    List.map_congr_left fun x hx => if_pos (List.mem_range.mp hx)
  rw [hconst] at h
  exact h

theorem invSqrt2_near : |invSqrt2 - 0.70710678| < 1e-6 := by
  have hpos : (0 : ℝ) < Real.sqrt 2 := Real.sqrt_pos.mpr (by norm_num)
  have hlb : (1.4142135 : ℝ) < Real.sqrt 2 := (Real.lt_sqrt (by norm_num)).mpr (by norm_num)
  have hub : Real.sqrt 2 < (1.4142136 : ℝ) := (Real.sqrt_lt' (by norm_num)).mpr (by norm_num)
  have h1 : (0.70710578 : ℝ) < 1 / Real.sqrt 2 := by
    rw [lt_div_iff hpos]
    nlinarith
  have h2 : 1 / Real.sqrt 2 < (0.70710778 : ℝ) := by
    rw [div_lt_iff hpos]
    nlinarith
  rw [invSqrt2, abs_lt]
  constructor <;> linarith

theorem invSqrt2C_near : Complex.abs (invSqrt2C - ((0.70710678 : ℝ) : ℂ)) < 1e-6 := by
  have hcast : invSqrt2C - ((0.70710678 : ℝ) : ℂ) = ((invSqrt2 - 0.70710678 : ℝ) : ℂ) := by
    rw [invSqrt2C, Complex.ofReal_sub]
  rw [hcast, Complex.abs_ofReal]
  exact invSqrt2_near

theorem executeState_one (path : String) (uf : Bool) :
    executeState ⟨path, uf, none⟩ 1 = .ok [invSqrt2C, invSqrt2C] := by
  rw [executeState_lib_none]
  congr 1
  rw [show List.range (2 ^ 1) = [0, 1] from (by decide)]
  simp

theorem executeState_two (path : String) (uf : Bool) :
    executeState ⟨path, uf, none⟩ 2 = .ok [1 / 2, 1 / 2, 1 / 2, 1 / 2] := by
  rw [executeState_lib_none]
  congr 1
  have hc2 : invSqrt2C ^ 2 = 1 / 2 := by
    linear_combination two_mul_invSqrt2C_sq / 2
  rw [show List.range (2 ^ 2) = [0, 1, 2, 3] from (by decide)]
  simp [hc2]

/-- Claim C6: for every qubit count n between 1 and 10, execution
starts from the zero basis state (amplitude 0 is one, the others
zero, length 2 to the n) and, after the dispatched Hadamard has been
applied to every qubit in sequence (software path), every amplitude
equals invSqrt2 to the n, so amplitude 0 equals the inverse square
root of 2 to the n; in particular one qubit yields amplitudes within
1e-6 of 0.70710678 and two qubits yield four amplitudes of one
half. -/
theorem execute_uniform_superposition (n : ℕ) (h1 : 1 ≤ n) (h10 : n ≤ 10)
    (path : String) (uf : Bool) :
    ((initState n).length = 2 ^ n ∧ (initState n).getD 0 0 = 1 ∧
      ∀ i, 0 < i → (initState n).getD i 0 = 0) ∧
    (∃ r, executeState ⟨path, uf, none⟩ n = .ok r ∧
      r.getD 0 0 = (((Real.sqrt (2 ^ n))⁻¹ : ℝ) : ℂ) ∧
      ∀ x, x < 2 ^ n → r.getD x 0 = invSqrt2C ^ n) ∧
    executeState ⟨path, uf, none⟩ 1 = .ok [invSqrt2C, invSqrt2C] ∧
    Complex.abs (invSqrt2C - ((0.70710678 : ℝ) : ℂ)) < 1e-6 ∧
    executeState ⟨path, uf, none⟩ 2 = .ok [1 / 2, 1 / 2, 1 / 2, 1 / 2] := by
  have hpow : (0 : ℕ) < 2 ^ n := Nat.pos_pow_of_pos n (by norm_num)
  refine ⟨⟨by simp [initState], ?_, ?_⟩, ?_, executeState_one path uf,
    invSqrt2C_near, executeState_two path uf⟩
  · rw [initState, getD_map_range, if_pos hpow]
    simp
  · intro i hi
    rw [initState, getD_map_range]
    by_cases h : i < 2 ^ n
    · rw [if_pos h, if_neg (by omega)]
    · rw [if_neg h]
  · refine ⟨(List.range (2 ^ n)).map (fun _ => invSqrt2C ^ n),
      executeState_lib_none path uf n, ?_, ?_⟩
    · rw [getD_map_range, if_pos hpow, invSqrt2C_pow]
    · intro x hx
      rw [getD_map_range, if_pos hx]

/-- Witness for claim C6 at two qubits. -/
theorem execute_uniform_superposition_witness :
    (1 : ℕ) ≤ 2 ∧ (2 : ℕ) ≤ 10 ∧
    (((initState 2).length = 2 ^ 2 ∧ (initState 2).getD 0 0 = 1 ∧
        ∀ i, 0 < i → (initState 2).getD i 0 = 0) ∧
      (∃ r, executeState ⟨"p", true, none⟩ 2 = .ok r ∧
        r.getD 0 0 = (((Real.sqrt (2 ^ 2))⁻¹ : ℝ) : ℂ) ∧
        ∀ x, x < 2 ^ 2 → r.getD x 0 = invSqrt2C ^ 2) ∧
      executeState ⟨"p", true, none⟩ 1 = .ok [invSqrt2C, invSqrt2C] ∧
      Complex.abs (invSqrt2C - ((0.70710678 : ℝ) : ℂ)) < 1e-6 ∧
      executeState ⟨"p", true, none⟩ 2 = .ok [1 / 2, 1 / 2, 1 / 2, 1 / 2]) :=
  ⟨by decide, by decide, execute_uniform_superposition 2 (by decide) (by decide) "p" true⟩
